import Mathlib

/-!
Shallow embedding of the `lenny-mcp` transcript search core
(`src/search.ts` and `src/loader.ts`), together with theorems checking
the natural-language specification against it.

JavaScript strings are modelled as lists of UTF-16 code units
(`Str := List Nat`); JS `number` limits are modelled as `Int` where the
source compares them with signed semantics.  The FlexSearch document
index is an external library: an initialized index is modelled as an
oracle function from the raw query and the requested limit to the raw
field-result lists it yields, and the theorems quantify over that oracle.
-/

namespace LennySearch

/-- A JS string: a list of UTF-16 code units. -/
abbrev Str := List Nat

/-- Embed a Lean string literal as a code-unit list. -/
def str (s : String) : Str := s.data.map Char.toNat

/-- JS `toLowerCase`, per code unit (ASCII letters; other units in this
corpus's range are unchanged). -/
def lowerCode (n : Nat) : Nat := if 65 ≤ n ∧ n ≤ 90 then n + 32 else n

/-- JS `String.prototype.toLowerCase`. -/
def lowerStr (s : Str) : Str := s.map lowerCode

/-- The JS whitespace class used by both `\s` and `String.prototype.trim`. -/
def wsCode (n : Nat) : Bool :=
  decide (n = 9 ∨ n = 10 ∨ n = 11 ∨ n = 12 ∨ n = 13 ∨ n = 32 ∨ n = 160 ∨ n = 5760 ∨
    (8192 ≤ n ∧ n ≤ 8202) ∨ n = 8232 ∨ n = 8233 ∨ n = 8239 ∨ n = 8287 ∨ n = 12288 ∨
    n = 65279)

/-- JS `String.prototype.indexOf`, returning `none` where JS returns `-1`. -/
def idxOf? : Str → Str → Option Nat
  | [], needle => if needle.isPrefixOf ([] : Str) then some 0 else none
  | c :: t, needle =>
    if needle.isPrefixOf (c :: t) then some 0
    else (idxOf? t needle).map (· + 1)

/-- JS `String.prototype.includes`. -/
def strIncludes (hay t : Str) : Bool := (idxOf? hay t).isSome

/-- The pieces produced by JS `split(/\s+/)` (before any filtering): the
split fields between whitespace code units.  Runs of whitespace yield empty
fields, which the caller's length filter discards, matching `/\s+/`. -/
def fields : Str → List Str
  | [] => [[]]
  | c :: t =>
    if wsCode c then [] :: fields t
    else
      match fields t with
      | [] => [[c]]
      | f :: fs => (c :: f) :: fs

/-- JS `String.prototype.trim`. -/
def trimStr (s : Str) : Str := ((s.dropWhile wsCode).reverse.dropWhile wsCode).reverse

/-- `loader.ts` — one loaded transcript (`Episode`). -/
structure Episode where
  guest : Str
  content : Str
  path : Str
deriving DecidableEq

/-- `search.ts` — one search hit (`SearchResult`). -/
structure SearchResult where
  guest : Str
  snippet : Str
  relevance : Nat
deriving DecidableEq

/-- The best (earliest) match position loop of `extractSnippet`:
for each term, `lowerContent.indexOf(term.toLowerCase())`, keeping the
smallest found position. -/
def bestPosAux (lowerContent : Str) : List Str → Option Nat → Option Nat
  | [], best => best
  | term :: rest, best =>
    match idxOf? lowerContent (lowerStr term), best with
    | none, _ => bestPosAux lowerContent rest best
    | some pos, none => bestPosAux lowerContent rest (some pos)
    | some pos, some b => bestPosAux lowerContent rest (some (if pos < b then pos else b))

/-- `bestPosition` in `extractSnippet` (`none` models `-1`). -/
def bestPos (lowerContent : Str) (searchTerms : List Str) : Option Nat :=
  bestPosAux lowerContent searchTerms none

/-- `loader.ts` `extractSnippet(content, searchTerms, snippetLength)`.
`start = Math.max(0, bestPosition - halfLength)` is truncated `Nat`
subtraction; slices are `drop`/`take`. -/
def extractSnippet (content : Str) (searchTerms : List Str) (snippetLength : Nat := 500) :
    Str :=
  let lowerContent := lowerStr content
  match bestPos lowerContent searchTerms with
  | none =>
    let startAfterAds := min 2000 content.length
    ((content.drop startAfterAds).take snippetLength) ++ str "..."
  | some bestPosition =>
    let halfLength := snippetLength / 2
    let start := bestPosition - halfLength
    let stop := min content.length (bestPosition + halfLength)
    let snippet := (content.drop start).take (stop - start)
    let snippet :=
      if 0 < start then
        let snippet :=
          match idxOf? snippet (str "\n") with
          | some newlinePos => if newlinePos < 100 then snippet.drop (newlinePos + 1) else snippet
          | none => snippet
        str "..." ++ snippet
      else snippet
    let snippet := if stop < content.length then snippet ++ str "..." else snippet
    trimStr snippet

/-- `search.ts` — the filtered query term list:
`query.toLowerCase().split(/\s+/).filter(t => t.length > 2)`. -/
def searchTerms (query : Str) : List Str :=
  (fields (lowerStr query)).filter (fun t => 2 < t.length)

/-- An initialized FlexSearch document index, abstracted as an oracle from
the raw query and the requested raw limit to the per-field lists of matched
ids (`results[field].result`, each item resolved to its guest id). -/
abbrev Oracle := Str → Int → List (List Str)

/-- The module-level mutable state of `search.ts`: `index` and `episodes`. -/
structure EngineState where
  index : Option Oracle
  episodes : List Episode

/-- The state before `initializeIndex` ran: `index = null`, `episodes = []`. -/
def initState : EngineState := ⟨none, []⟩

/-- `initializeIndex(loadedEpisodes)`: stores the episodes and a freshly
built index (the oracle abstracts the FlexSearch build). -/
def initializeIndex (loadedEpisodes : List Episode) (builtIndex : Oracle) : EngineState :=
  ⟨some builtIndex, loadedEpisodes⟩

/-- The inner loop of the index pass of `searchTranscripts`: walk one field's
items, skipping falsy or already-seen guests, resolving each new guest to its
episode, and appending a result; the returned flag records the
`if (searchResults.length >= limit) break`. -/
def runInner (eps : List Episode) (terms : List Str) (limit : Int) :
    List Str → List Str → List SearchResult → List Str × List SearchResult × Bool
  | [], seen, acc => (seen, acc, false)
  | g :: rest, seen, acc =>
    if g = [] ∨ seen.contains g = true then runInner eps terms limit rest seen acc
    else
      match eps.find? (fun e => e.guest == g) with
      | none => runInner eps terms limit rest (g :: seen) acc
      | some ep =>
        let acc' := acc ++ [⟨g, extractSnippet ep.content terms 600, acc.length + 1⟩]
        if limit ≤ (acc'.length : Int) then (g :: seen, acc', true)
        else runInner eps terms limit rest (g :: seen) acc'

/-- The outer loop of the index pass: walk the field results, running the
inner loop, and breaking when the inner loop broke or the accumulated
results reached `limit`. -/
def runOuter (eps : List Episode) (terms : List Str) (limit : Int) :
    List (List Str) → List Str → List SearchResult → List Str × List SearchResult
  | [], seen, acc => (seen, acc)
  | fr :: rest, seen, acc =>
    match runInner eps terms limit fr seen acc with
    | (seen', acc', true) => (seen', acc')
    | (seen', acc', false) =>
      if limit ≤ (acc'.length : Int) then (seen', acc')
      else runOuter eps terms limit rest seen' acc'

/-- The fallback pass of `searchTranscripts`: scan the corpus in order, and
for each not-yet-seen guest whose lowered content includes some term as a
literal substring, append a result until `limit` is reached. -/
def fallbackRun (terms : List Str) (limit : Int) :
    List Episode → List Str → List SearchResult → List SearchResult
  | [], _, acc => acc
  | ep :: rest, seen, acc =>
    if seen.contains ep.guest = true then fallbackRun terms limit rest seen acc
    else if terms.any (fun t => strIncludes (lowerStr ep.content) t) then
      let acc' := acc ++ [⟨ep.guest, extractSnippet ep.content terms 600, acc.length + 1⟩]
      if limit ≤ (acc'.length : Int) then acc'
      else fallbackRun terms limit rest (ep.guest :: seen) acc'
    else fallbackRun terms limit rest seen acc

/-- `search.ts` `searchTranscripts(query, limit = 10)`.  Throwing is
modelled as `Except.error`; the index pass consumes the oracle's raw
results for `(query, limit * 2)`. -/
def searchTranscripts (st : EngineState) (query : Str) (limit : Int := 10) :
    Except String (List SearchResult) :=
  match st.index with
  | none => Except.error "Search index not initialized"
  | some f =>
    let results := f query (limit * 2)
    let terms := searchTerms query
    let p := runOuter st.episodes terms limit results [] []
    Except.ok
      (if (p.2.length : Int) < limit then fallbackRun terms limit st.episodes p.1 p.2
       else p.2)

/-- `search.ts` `getEpisode(guest)`: case-insensitive exact identity match
first, then case-insensitive substring match, else `null`. -/
def getEpisode (st : EngineState) (guest : Str) : Option Episode :=
  match st.episodes.find? (fun e => lowerStr e.guest == lowerStr guest) with
  | some e => some e
  | none => st.episodes.find? (fun e => strIncludes (lowerStr e.guest) (lowerStr guest))

/-- Lexicographic code-unit comparison, the default JS `Array.sort`
comparison on strings. -/
def leStr : Str → Str → Bool
  | [], _ => true
  | _ :: _, [] => false
  | a :: as, b :: bs => if a < b then true else if b < a then false else leStr as bs

/-- `search.ts` `listEpisodes()`: `episodes.map(e => e.guest).sort()`. -/
def listEpisodes (st : EngineState) : List Str :=
  List.insertionSort (fun x y => leStr x y = true) (st.episodes.map (·.guest))

/-- A directory entry handed to the loader: file name and file content. -/
structure SourceFile where
  name : Str
  content : Str
deriving DecidableEq

/-- JS `String.prototype.replace` with a plain-string pattern and empty
replacement: remove the first occurrence of `pat`, if any. -/
def removeFirst (s pat : Str) : Str :=
  match idxOf? s pat with
  | none => s
  | some p => s.take p ++ s.drop (p + pat.length)

/-- `loader.ts` `loadTranscripts`: keep `.txt` files, derive the guest by
`file.replace(".txt", "")`, and record `join(transcriptsPath, file)`. -/
def loadTranscripts (transcriptsPath : Str) (files : List SourceFile) : List Episode :=
  (files.filter (fun f => (str ".txt").isSuffixOf f.name)).map
    (fun f =>
      { guest := removeFirst f.name (str ".txt")
        content := f.content
        path := transcriptsPath ++ str "/" ++ f.name })

/-- The `search_transcripts` tool handler's limit coercion in `index.ts`:
`args.limit || 10` — `undefined` and `0` are falsy and fall back to 10,
every other number (including negatives) passes through. -/
def effectiveLimit : Option Int → Int
  | none => 10
  | some v => if v = 0 then 10 else v

/-- The `search_transcripts` tool call: coerce the limit, then run the
search core. -/
def searchToolCall (st : EngineState) (query : Str) (lim : Option Int) :
    Except String (List SearchResult) :=
  searchTranscripts st query (effectiveLimit lim)

/-- The loop invariant shared by the index pass and the fallback pass of
`searchTranscripts`: result guests are distinct and all marked seen,
relevance values are `1..k` in append order, every seen guest that names a
corpus episode already produced a result, and every result's snippet was
produced by `extractSnippet` on its episode's content with the filtered
term list. -/
structure Inv (eps : List Episode) (terms : List Str) (seen : List Str)
    (acc : List SearchResult) : Prop where
  nodup : (acc.map (·.guest)).Nodup
  seen_mem : ∀ r ∈ acc, r.guest ∈ seen
  ranks : acc.map (·.relevance) = List.range' 1 acc.length
  seen_covered : ∀ g ∈ seen, (∃ e ∈ eps, e.guest = g) → g ∈ acc.map (·.guest)
  prov : ∀ r ∈ acc, ∃ e ∈ eps, r.guest = e.guest ∧
    r.snippet = extractSnippet e.content terms 600

/-- An index oracle that yields no raw results for any query. -/
def oracleEmpty : Oracle := fun _ _ => []

/-- An index oracle that always yields the single guest id `"G"`. -/
def oracleG : Oracle := fun _ _ => [[str "G"]]

/-- Concrete corpus elements used in the concrete evaluations below. -/
def epXY : Episode := ⟨str "G", str "xy", str "pG"⟩

def epAbc : Episode := ⟨str "G", str "abc", str "pA"⟩

def epAbcDef : Episode := ⟨str "G", str "abc def", str "pD"⟩

def epUpperA : Episode := ⟨str "A", str "ca", str "qa"⟩

def epLowerA : Episode := ⟨str "a", str "cb", str "qb"⟩

def epJane : Episode := ⟨str "Jane Doe", str "pricing talk", str "pj"⟩

def epEmptyGuest : Episode := ⟨str "", str "ce", str "qe"⟩

def fileTricky : SourceFile := ⟨str "foo.txtbar.txt", str "c"⟩

def fileJane : SourceFile := ⟨str "Jane Doe.txt", str "c2"⟩

/-! ### Basic facts about the string model -/

theorem lowerCode_idem (n : Nat) : lowerCode (lowerCode n) = lowerCode n := by
  unfold lowerCode
  split_ifs <;> omega

theorem wsCode_lowerCode (n : Nat) : wsCode (lowerCode n) = wsCode n := by
  unfold lowerCode wsCode
  split_ifs with h
  · simp only [decide_eq_decide]
    omega
  · rfl

theorem lowerStr_idem (s : Str) : lowerStr (lowerStr s) = lowerStr s := by
  induction s with
  | nil => rfl
  | cons c t ih =>
    simp only [lowerStr, List.map_cons] at ih ⊢
    rw [lowerCode_idem, ih]

theorem length_lowerStr (s : Str) : (lowerStr s).length = s.length :=
  List.length_map s lowerCode

theorem idxOf?_some (hay needle : Str) (p : Nat) (h : idxOf? hay needle = some p) :
    needle <+: hay.drop p := by
  induction hay generalizing p with
  | nil =>
    unfold idxOf? at h
    split at h
    · rename_i hpre
      cases h
      simpa using List.isPrefixOf_iff_prefix.mp hpre
    · cases h
  | cons c t ih =>
    unfold idxOf? at h
    split at h
    · rename_i hpre
      cases h
      exact List.isPrefixOf_iff_prefix.mp hpre
    · rcases Option.map_eq_some'.mp h with ⟨q, hq, rfl⟩
      exact ih q hq

theorem infix_of_prefix_drop {t l : Str} {p : Nat} (h : t <+: l.drop p) : t <:+: l := by
  rcases h with ⟨u, hu⟩
  exact ⟨l.take p, u, by rw [List.append_assoc, hu, List.take_append_drop]⟩

theorem idxOf?_isSome_of_infix {needle hay : Str} (h : needle <:+: hay) :
    (idxOf? hay needle).isSome = true := by
  induction hay with
  | nil =>
    rw [List.infix_nil] at h
    subst h
    rfl
  | cons c t ih =>
    unfold idxOf?
    split
    · rfl
    · rename_i hpre
      rcases List.infix_cons_iff.mp h with hp | hi
      · exact absurd (List.isPrefixOf_iff_prefix.mpr hp) (by simpa using hpre)
      · simpa using ih hi

theorem strIncludes_iff {hay t : Str} : strIncludes hay t = true ↔ t <:+: hay := by
  constructor
  · intro h
    unfold strIncludes at h
    rcases Option.isSome_iff_exists.mp h with ⟨p, hp⟩
    exact infix_of_prefix_drop (idxOf?_some hay t p hp)
  · exact idxOf?_isSome_of_infix

theorem strIncludes_nil (hay : Str) : strIncludes hay [] = true :=
  strIncludes_iff.mpr List.nil_infix

theorem prefix_take_of_le {u v : Str} {m : Nat} (h : u <+: v) (hm : u.length ≤ m) :
    u <+: v.take m :=
  List.prefix_take_iff.mpr ⟨h, hm⟩

theorem infix_dropWhile_of_not_ws {t : Str} (hne : t ≠ [])
    (hws : ∀ c ∈ t, wsCode c = false) :
    ∀ {l : Str}, t <:+: l → t <:+: l.dropWhile wsCode := by
  intro l
  induction l with
  | nil =>
    intro h
    rw [List.infix_nil] at h
    exact absurd h hne
  | cons c l ih =>
    intro h
    by_cases hc : wsCode c = true
    · rw [List.dropWhile_cons_of_pos hc]
      apply ih
      rcases List.infix_cons_iff.mp h with hp | hi
      · exfalso
        cases t with
        | nil => exact hne rfl
        | cons t0 t' =>
          have := (List.cons_prefix_cons.mp hp).1
          have hws0 := hws t0 (List.mem_cons_self _ _)
          rw [this, hc] at hws0
          cases hws0
      · exact hi
    · rwa [List.dropWhile_cons_of_neg hc]

theorem infix_trimStr {t s : Str} (hne : t ≠ []) (hws : ∀ c ∈ t, wsCode c = false)
    (h : t <:+: s) : t <:+: trimStr s := by
  unfold trimStr
  have h1 : t <:+: s.dropWhile wsCode := infix_dropWhile_of_not_ws hne hws h
  have h2 : t.reverse <:+: (s.dropWhile wsCode).reverse := by
    rw [ List.reverse_infix]
    exact h1
  have h3 : t.reverse <:+: (s.dropWhile wsCode).reverse.dropWhile wsCode := by
    refine infix_dropWhile_of_not_ws (by simpa using hne) ?_ h2
    intro c hc
    exact hws c (List.mem_reverse.mp hc)
  have h4 : t.reverse.reverse <:+:
      ((s.dropWhile wsCode).reverse.dropWhile wsCode).reverse := by
    rw [ List.reverse_infix]
    exact h3
  simpa using h4

theorem lowerStr_trimStr (s : Str) : lowerStr (trimStr s) = trimStr (lowerStr s) := by
  have hcomp : (wsCode ∘ lowerCode) = wsCode := funext wsCode_lowerCode
  unfold trimStr lowerStr
  rw [List.dropWhile_map, hcomp, ← List.map_reverse, List.dropWhile_map, hcomp,
    ← List.map_reverse]

/-! ### The lexicographic order used by `listEpisodes` -/

theorem leStr_cons_iff (x y : Nat) (xs ys : Str) :
    leStr (x :: xs) (y :: ys) = true ↔ x < y ∨ (x = y ∧ leStr xs ys = true) := by
  rcases Nat.lt_trichotomy x y with h | h | h
  · simp [leStr, h]
  · subst h
    simp [leStr, Nat.lt_irrefl]
  · have h1 : ¬ x < y := Nat.lt_asymm h
    simp only [leStr, if_neg h1, if_pos h, Bool.false_eq_true, false_iff]
    rintro (h' | ⟨h', _⟩) <;> omega

theorem leStr_total (a b : Str) : leStr a b = true ∨ leStr b a = true := by
  induction a generalizing b with
  | nil => exact Or.inl rfl
  | cons x xs ih =>
    cases b with
    | nil => exact Or.inr rfl
    | cons y ys =>
      rcases Nat.lt_trichotomy x y with h | h | h
      · exact Or.inl ((leStr_cons_iff ..).mpr (Or.inl h))
      · subst h
        rcases ih ys with h' | h'
        · exact Or.inl ((leStr_cons_iff ..).mpr (Or.inr ⟨rfl, h'⟩))
        · exact Or.inr ((leStr_cons_iff ..).mpr (Or.inr ⟨rfl, h'⟩))
      · exact Or.inr ((leStr_cons_iff ..).mpr (Or.inl h))

theorem leStr_trans (a b c : Str) (h1 : leStr a b = true) (h2 : leStr b c = true) :
    leStr a c = true := by
  induction a generalizing b c with
  | nil => rfl
  | cons x xs ih =>
    cases b with
    | nil => cases h1
    | cons y ys =>
      cases c with
      | nil => cases h2
      | cons z zs =>
        rcases (leStr_cons_iff ..).mp h1 with hxy | ⟨rfl, hxy⟩ <;>
          rcases (leStr_cons_iff ..).mp h2 with hyz | ⟨rfl, hyz⟩
        · exact (leStr_cons_iff ..).mpr (Or.inl (Nat.lt_trans hxy hyz))
        · exact (leStr_cons_iff ..).mpr (Or.inl hxy)
        · exact (leStr_cons_iff ..).mpr (Or.inl hyz)
        · exact (leStr_cons_iff ..).mpr (Or.inr ⟨rfl, ih ys zs hxy hyz⟩)

theorem leStr_antisymm (a b : Str) (h1 : leStr a b = true) (h2 : leStr b a = true) :
    a = b := by
  induction a generalizing b with
  | nil =>
    cases b with
    | nil => rfl
    | cons y ys => cases h2
  | cons x xs ih =>
    cases b with
    | nil => cases h1
    | cons y ys =>
      rcases (leStr_cons_iff ..).mp h1 with hxy | ⟨rfl, hxy⟩ <;>
        rcases (leStr_cons_iff ..).mp h2 with hyx | ⟨hyx', hyx⟩
      · omega
      · omega
      · omega
      · rw [ih ys hxy hyx]

/-! ### Claim C8 — corpus listing -/

/-- Claim C8: `listEpisodes` returns exactly the multiset of the corpus's
identities, lexicographically sorted, with no duplicates beyond those in the
corpus, and the output is invariant under permutations of the load order. -/
theorem listEpisodes_sorted_unique (st st' : EngineState)
    (hperm : st.episodes.Perm st'.episodes) :
    (listEpisodes st).Perm (st.episodes.map (·.guest)) ∧
    List.Sorted (fun x y => leStr x y = true) (listEpisodes st) ∧
    listEpisodes st = listEpisodes st' := by
  haveI : IsTotal Str (fun x y => leStr x y = true) := ⟨leStr_total⟩
  haveI : IsTrans Str (fun x y => leStr x y = true) := ⟨leStr_trans⟩
  haveI : IsAntisymm Str (fun x y => leStr x y = true) := ⟨leStr_antisymm⟩
  refine ⟨List.perm_insertionSort _ _, List.sorted_insertionSort _ _, ?_⟩
  exact List.eq_of_perm_of_sorted
    ((List.perm_insertionSort _ _).trans
      ((hperm.map _).trans (List.perm_insertionSort _ _).symm))
    (List.sorted_insertionSort _ _) (List.sorted_insertionSort _ _)

/-- Witness for C8 at a concrete two-episode corpus and its reversal. -/
theorem listEpisodes_sorted_unique_witness :
    (listEpisodes ⟨none, [epUpperA, epLowerA]⟩).Perm
      ((⟨none, [epUpperA, epLowerA]⟩ : EngineState).episodes.map (·.guest)) ∧
    List.Sorted (fun x y => leStr x y = true)
      (listEpisodes ⟨none, [epUpperA, epLowerA]⟩) ∧
    listEpisodes ⟨none, [epUpperA, epLowerA]⟩ = listEpisodes ⟨none, [epLowerA, epUpperA]⟩ :=
  listEpisodes_sorted_unique ⟨none, [epUpperA, epLowerA]⟩ ⟨none, [epLowerA, epUpperA]⟩
    (by decide)

/-! ### Claim C3 — behaviour before initialization -/

/-- Counterexample for C3 as stated: on the uninitialized engine,
`listEpisodes` silently returns the empty list and `getEpisode` silently
returns not-found — neither surfaces an "uninitialized index" error, though
the claim requires one for all three query operations. -/
theorem uninit_query_silent_cex :
    listEpisodes initState = [] ∧ getEpisode initState (str "x") = none ∧
    searchTranscripts initState (str "x") 10 =
      Except.error "Search index not initialized" :=
  ⟨rfl, rfl, rfl⟩

/-- Claim C3 (amended): before initialization, `searchTranscripts` fails with
the explicit "Search index not initialized" error for every query and limit,
while `getEpisode` and `listEpisodes` perform no initialization check: on the
uninitialized state they run against the empty corpus, silently returning
not-found and the empty list respectively. -/
theorem uninit_query_behavior (eps : List Episode) (q : Str) (l : Int) (g : Str) :
    searchTranscripts ⟨none, eps⟩ q l = Except.error "Search index not initialized" ∧
    getEpisode initState g = none ∧
    listEpisodes initState = [] :=
  ⟨rfl, rfl, rfl⟩

/-! ### Claim C5 — limit coercion and benign inputs -/

/-- Counterexample for C5 as stated: a negative limit is truthy in JS, so
`args.limit || 10` passes it through, and the search then behaves differently
from the default limit of 10 — here returning no results instead of one. -/
theorem negative_limit_cex :
    searchToolCall ⟨some oracleEmpty, [epAbcDef]⟩ (str "abc") (some (-1)) =
      Except.ok [] ∧
    searchToolCall ⟨some oracleEmpty, [epAbcDef]⟩ (str "abc") none =
      Except.ok [⟨str "G", str "abc def", 1⟩] :=
  ⟨rfl, rfl⟩

/-- Claim C5 (amended): a missing or zero limit behaves exactly as the
default of 10 (negative limits pass through `args.limit || 10` unchanged),
and on an initialized engine no query input — the empty string included —
ever produces an error: the call always returns `ok`. -/
theorem limit_default_behavior (f : Oracle) (eps : List Episode) (q : Str)
    (l : Option Int) :
    searchToolCall ⟨some f, eps⟩ q none = searchTranscripts ⟨some f, eps⟩ q 10 ∧
    searchToolCall ⟨some f, eps⟩ q (some 0) = searchTranscripts ⟨some f, eps⟩ q 10 ∧
    ∃ rs, searchToolCall ⟨some f, eps⟩ q l = Except.ok rs :=
  ⟨rfl, rfl, ⟨_, rfl⟩⟩

/-! ### Claim C6 — identity round-trip through `getEpisode` -/

/-- Counterexample for C6 as stated: two corpus documents whose identities
differ only by case. `getEpisode` on the second document's exact identity
returns the first document, so the round-trip fails. -/
theorem getEpisode_case_collision_cex :
    getEpisode ⟨none, [epUpperA, epLowerA]⟩ (str "a") = some epUpperA ∧
    epLowerA ∈ ([epUpperA, epLowerA] : List Episode) ∧
    epLowerA.guest = str "a" ∧ epUpperA ≠ epLowerA :=
  ⟨rfl, by decide, rfl, by decide⟩

theorem find?_lowered_unique (eps : List Episode) (D : Episode)
    (hnd : (eps.map (fun e => lowerStr e.guest)).Nodup) (hD : D ∈ eps) :
    eps.find? (fun e => lowerStr e.guest == lowerStr D.guest) = some D := by
  induction eps with
  | nil => cases hD
  | cons e t ih =>
    rcases List.mem_cons.mp hD with rfl | hDt
    · exact List.find?_cons_of_pos _ (by simp)
    · have hne : ¬ lowerStr e.guest = lowerStr D.guest := by
        intro hE
        have hmem : lowerStr D.guest ∈ t.map (fun x => lowerStr x.guest) :=
          List.mem_map_of_mem _ hDt
        rw [← hE] at hmem
        exact (List.nodup_cons.mp hnd).1 hmem
      rw [List.find?_cons_of_neg _ (by simpa using hne)]
      exact ih (List.nodup_cons.mp hnd).2 hDt

/-- Claim C6 (amended): provided no two corpus documents share the same
lower-cased identity, `getEpisode` on a document's exact identity — and on
its lower-cased identity — returns exactly that document, via the exact
case-insensitive pass that precedes substring matching. -/
theorem getEpisode_roundtrip (st : EngineState) (D : Episode)
    (hnd : (st.episodes.map (fun e => lowerStr e.guest)).Nodup)
    (hD : D ∈ st.episodes) :
    getEpisode st D.guest = some D ∧ getEpisode st (lowerStr D.guest) = some D := by
  constructor
  · unfold getEpisode
    rw [find?_lowered_unique st.episodes D hnd hD]
  · unfold getEpisode
    have harg : (fun e : Episode => lowerStr e.guest == lowerStr (lowerStr D.guest)) =
        (fun e : Episode => lowerStr e.guest == lowerStr D.guest) := by
      funext e
      rw [lowerStr_idem]
    rw [harg, find?_lowered_unique st.episodes D hnd hD]

/-- Witness for C6 at a one-document corpus. -/
theorem getEpisode_roundtrip_witness :
    getEpisode ⟨none, [epJane]⟩ epJane.guest = some epJane ∧
    getEpisode ⟨none, [epJane]⟩ (lowerStr epJane.guest) = some epJane :=
  getEpisode_roundtrip ⟨none, [epJane]⟩ epJane (by decide) (by decide)

/-! ### Claim C10 — the empty-string identity query -/

/-- Counterexample for C10 as stated: if some non-first document has the
empty identity, the exact-match pass already succeeds on it, and
`getEpisode ""` returns that document rather than the first one. -/
theorem getEpisode_empty_query_cex :
    getEpisode ⟨none, [epUpperA, epEmptyGuest]⟩ [] = some epEmptyGuest ∧
    epEmptyGuest ≠ epUpperA :=
  ⟨rfl, by decide⟩

/-- Claim C10 (amended): on a non-empty corpus in which no document has the
empty identity, `getEpisode ""` returns the first document in corpus order:
the exact pass finds nothing and the substring pass accepts the first
document because the empty string is a substring of every identity. -/
theorem getEpisode_empty_query_first (st : EngineState) (ep₀ : Episode)
    (rest : List Episode) (heps : st.episodes = ep₀ :: rest)
    (hne : ∀ e ∈ st.episodes, e.guest ≠ []) :
    getEpisode st [] = some ep₀ := by
  unfold getEpisode
  rw [heps]
  have h1 : List.find? (fun e => lowerStr e.guest == lowerStr []) (ep₀ :: rest) = none := by
    rw [List.find?_eq_none]
    intro e he
    have hg := hne e (by rw [heps]; exact he)
    simp only [lowerStr, List.map_nil, beq_iff_eq, List.map_eq_nil_iff]
    exact hg
  rw [h1]
  exact List.find?_cons_of_pos _ (strIncludes_nil _)

/-- Witness for C10 at a concrete one-document corpus. -/
theorem getEpisode_empty_query_first_witness :
    getEpisode ⟨none, [epUpperA]⟩ [] = some epUpperA :=
  getEpisode_empty_query_first ⟨none, [epUpperA]⟩ epUpperA [] rfl (by decide)

/-! ### Claim C9 — identity derivation in the loader -/

/-- Counterexample for C9 as stated: JS `replace(".txt", "")` removes the
first occurrence, not the trailing extension, so the file
`"foo.txtbar.txt"` yields identity `"foobar.txt"`, not `"foo.txtbar"`. -/
theorem loader_replace_first_cex :
    (loadTranscripts (str "") [fileTricky]).map (·.guest) = [str "foobar.txt"] ∧
    str "foobar.txt" ≠ str "foo.txtbar" :=
  ⟨rfl, by decide⟩

/-- Claim C9 (amended): every loaded episode comes from a file whose name
ends in ".txt", and its identity is the file name with the first occurrence
of ".txt" removed (no other normalization); whenever that first occurrence
is the trailing extension, this equals the name with the extension
stripped. -/
theorem loader_identity_derivation :
    (∀ (dir : Str) (files : List SourceFile) (ep : Episode),
        ep ∈ loadTranscripts dir files →
        ∃ f, f ∈ files ∧ (str ".txt").isSuffixOf f.name = true ∧
          ep.guest = removeFirst f.name (str ".txt")) ∧
    (∀ (s : Str) (p : Nat), idxOf? s (str ".txt") = some p → p + 4 = s.length →
        removeFirst s (str ".txt") = s.take p) := by
  constructor
  · intro dir files ep hep
    unfold loadTranscripts at hep
    rcases List.mem_map.mp hep with ⟨f, hf, hfe⟩
    have hfilt := List.mem_filter.mp hf
    exact ⟨f, hfilt.1, hfilt.2, by rw [← hfe]⟩
  · intro s p hidx hlen
    unfold removeFirst
    rw [hidx]
    show s.take p ++ s.drop (p + 4) = s.take p
    rw [hlen, List.drop_length, List.append_nil]

/-- Witness for C9 at a concrete file list. -/
theorem loader_identity_derivation_witness :
    (∃ f, f ∈ [fileJane] ∧ (str ".txt").isSuffixOf f.name = true ∧
      (Episode.mk (str "Jane Doe") (str "c2") (str "d/Jane Doe.txt")).guest =
        removeFirst f.name (str ".txt")) ∧
    removeFirst (str "Jane Doe.txt") (str ".txt") = (str "Jane Doe.txt").take 8 :=
  ⟨loader_identity_derivation.1 (str "d") [fileJane]
      (Episode.mk (str "Jane Doe") (str "c2") (str "d/Jane Doe.txt")) (by decide),
    loader_identity_derivation.2 (str "Jane Doe.txt") 8 (by decide) (by decide)⟩

/-! ### The search invariant and the two passes -/

theorem Inv.push {eps : List Episode} {terms : List Str} {seen : List Str}
    {acc : List SearchResult} (h : Inv eps terms seen acc) {g : Str} {e : Episode}
    (hg : g ∉ seen) (he : e ∈ eps) (hge : e.guest = g) :
    Inv eps terms (g :: seen)
      (acc ++ [⟨g, extractSnippet e.content terms 600, acc.length + 1⟩]) := by
  constructor
  · rw [List.map_append]
    refine List.Nodup.append h.nodup (by simp) ?_
    intro a ha hb
    simp only [List.map_cons, List.map_nil, List.mem_singleton] at hb
    rcases List.mem_map.mp ha with ⟨r, hr, hrg⟩
    subst hb
    exact hg (hrg ▸ h.seen_mem r hr)
  · intro r hr
    rcases List.mem_append.mp hr with hr | hr
    · exact List.mem_cons_of_mem _ (h.seen_mem r hr)
    · simp only [List.mem_singleton] at hr
      subst hr
      exact List.mem_cons_self _ _
  · simp only [List.map_append, List.map_cons, List.map_nil, List.length_append,
      List.length_singleton]
    rw [h.ranks, List.range'_concat]
    congr 2
    omega
  · intro g' hg' hex
    rw [List.map_append]
    rcases List.mem_cons.mp hg' with rfl | hg'
    · exact List.mem_append_right _ (by simp)
    · exact List.mem_append_left _ (h.seen_covered g' hg' hex)
  · intro r hr
    rcases List.mem_append.mp hr with hr | hr
    · exact h.prov r hr
    · simp only [List.mem_singleton] at hr
      subst hr
      exact ⟨e, he, hge.symm, rfl⟩

theorem Inv.init (eps : List Episode) (terms : List Str) : Inv eps terms [] [] := by
  constructor <;> simp

theorem runInner_spec (eps : List Episode) (terms : List Str) (limit : Int) :
    ∀ (items seen : List Str) (acc : List SearchResult) (seen' : List Str)
      (acc' : List SearchResult) (stop : Bool),
      runInner eps terms limit items seen acc = (seen', acc', stop) →
      Inv eps terms seen acc →
      Inv eps terms seen' acc' ∧
      ((acc.length : Int) < limit →
        (stop = true → (acc'.length : Int) = limit) ∧
        (stop = false → (acc'.length : Int) < limit)) := by
  intro items
  induction items with
  | nil =>
    intro seen acc seen' acc' stop hrun hinv
    unfold runInner at hrun
    simp only [Prod.mk.injEq] at hrun
    obtain ⟨rfl, rfl, rfl⟩ := hrun
    exact ⟨hinv, fun h => ⟨fun hs => Bool.noConfusion hs, fun _ => h⟩⟩
  | cons g rest ih =>
    intro seen acc seen' acc' stop hrun hinv
    unfold runInner at hrun
    split at hrun
    · exact ih seen acc seen' acc' stop hrun hinv
    · rename_i hskip
      split at hrun
      · rename_i hfind
        have hinv' : Inv eps terms (g :: seen) acc := by
          constructor
          · exact hinv.nodup
          · intro r hr
            exact List.mem_cons_of_mem _ (hinv.seen_mem r hr)
          · exact hinv.ranks
          · intro g' hg' hex
            rcases List.mem_cons.mp hg' with rfl | hg'
            · exfalso
              rcases hex with ⟨e, he, hge⟩
              have hne := List.find?_eq_none.mp hfind e he
              simp [hge] at hne
            · exact hinv.seen_covered g' hg' hex
          · exact hinv.prov
        exact ih (g :: seen) acc seen' acc' stop hrun hinv'
      · rename_i ep hfind
        have hrun' :
            (if limit ≤ ((acc ++
                  [SearchResult.mk g (extractSnippet ep.content terms 600)
                    (acc.length + 1)]).length : Int)
              then (g :: seen,
                acc ++ [SearchResult.mk g (extractSnippet ep.content terms 600)
                  (acc.length + 1)], true)
              else runInner eps terms limit rest (g :: seen)
                (acc ++ [SearchResult.mk g (extractSnippet ep.content terms 600)
                  (acc.length + 1)])) =
              (seen', acc', stop) := hrun
        have hgnot : g ∉ seen := by
          intro hmem
          exact hskip (Or.inr (List.elem_iff.mpr hmem))
        have hepg : ep.guest = g := by simpa using List.find?_some hfind
        have hinvp := hinv.push hgnot (List.mem_of_find?_eq_some hfind) hepg
        split at hrun'
        · rename_i hle
          simp only [Prod.mk.injEq] at hrun'
          obtain ⟨rfl, rfl, rfl⟩ := hrun'
          refine ⟨hinvp, fun hlt => ⟨fun _ => ?_, fun hs => Bool.noConfusion hs⟩⟩
          simp only [List.length_append, List.length_singleton] at hle ⊢
          omega
        · rename_i hgt
          have hrec := ih (g :: seen) _ seen' acc' stop hrun' hinvp
          refine ⟨hrec.1, fun hlt => hrec.2 ?_⟩
          simp only [List.length_append, List.length_singleton] at hgt ⊢
          omega

theorem runOuter_spec (eps : List Episode) (terms : List Str) (limit : Int) :
    ∀ (frs : List (List Str)) (seen : List Str) (acc : List SearchResult)
      (seen' : List Str) (acc' : List SearchResult),
      runOuter eps terms limit frs seen acc = (seen', acc') →
      Inv eps terms seen acc →
      Inv eps terms seen' acc' ∧
      ((acc.length : Int) < limit → (acc'.length : Int) ≤ limit) := by
  intro frs
  induction frs with
  | nil =>
    intro seen acc seen' acc' hrun hinv
    unfold runOuter at hrun
    simp only [Prod.mk.injEq] at hrun
    obtain ⟨rfl, rfl⟩ := hrun
    exact ⟨hinv, fun h => le_of_lt h⟩
  | cons fr rest ih =>
    intro seen acc seen' acc' hrun hinv
    unfold runOuter at hrun
    rcases hinner : runInner eps terms limit fr seen acc with ⟨seen₁, acc₁, stop₁⟩
    rw [hinner] at hrun
    have hspec := runInner_spec eps terms limit fr seen acc seen₁ acc₁ stop₁ hinner hinv
    cases stop₁ with
    | true =>
      have hrun' : (seen₁, acc₁) = (seen', acc') := hrun
      simp only [Prod.mk.injEq] at hrun'
      obtain ⟨rfl, rfl⟩ := hrun'
      exact ⟨hspec.1, fun hlt => le_of_eq ((hspec.2 hlt).1 rfl)⟩
    | false =>
      have hrun' :
          (if limit ≤ (acc₁.length : Int) then (seen₁, acc₁)
            else runOuter eps terms limit rest seen₁ acc₁) = (seen', acc') := hrun
      split at hrun'
      · rename_i hle
        simp only [Prod.mk.injEq] at hrun'
        obtain ⟨rfl, rfl⟩ := hrun'
        exact ⟨hspec.1, fun hlt => le_of_lt ((hspec.2 hlt).2 rfl)⟩
      · rename_i hgt
        have hrec := ih seen₁ acc₁ seen' acc' hrun' hspec.1
        exact ⟨hrec.1, fun hlt => hrec.2 ((hspec.2 hlt).2 rfl)⟩

theorem fallbackRun_spec (eps : List Episode) (terms : List Str) (limit : Int) :
    ∀ (rest : List Episode) (seen : List Str) (acc out : List SearchResult),
      fallbackRun terms limit rest seen acc = out →
      Inv eps terms seen acc →
      (∀ e ∈ rest, e ∈ eps) →
      (out.map (·.guest)).Nodup ∧
      out.map (·.relevance) = List.range' 1 out.length ∧
      acc <+: out ∧
      (∀ r ∈ out, ∃ e ∈ eps, r.guest = e.guest ∧
        r.snippet = extractSnippet e.content terms 600) ∧
      ((acc.length : Int) < limit → (out.length : Int) ≤ limit) ∧
      ((out.length : Int) < limit →
        ∀ e ∈ rest, terms.any (fun t => strIncludes (lowerStr e.content) t) = true →
          e.guest ∈ out.map (·.guest)) := by
  intro rest
  induction rest with
  | nil =>
    intro seen acc out hrun hinv hrest
    unfold fallbackRun at hrun
    subst hrun
    exact ⟨hinv.nodup, hinv.ranks, List.prefix_refl _, hinv.prov,
      fun h => le_of_lt h, fun _ e he => absurd he (List.not_mem_nil e)⟩
  | cons ep rest' ih =>
    intro seen acc out hrun hinv hrest
    unfold fallbackRun at hrun
    split at hrun
    · rename_i hcont
      have IH := ih seen acc out hrun hinv (fun e he => hrest e (List.mem_cons_of_mem _ he))
      refine ⟨IH.1, IH.2.1, IH.2.2.1, IH.2.2.2.1, IH.2.2.2.2.1, ?_⟩
      intro hlt e he hmatch
      rcases List.mem_cons.mp he with rfl | he'
      · have hmem : e.guest ∈ seen := List.elem_iff.mp hcont
        have hcov := hinv.seen_covered e.guest hmem
          ⟨e, hrest e (List.mem_cons_self _ _), rfl⟩
        exact (IH.2.2.1.map (·.guest)).subset hcov
      · exact IH.2.2.2.2.2 hlt e he' hmatch
    · rename_i hcont
      split at hrun
      · rename_i hmatch
        have hrun' :
            (if limit ≤ ((acc ++
                  [SearchResult.mk ep.guest (extractSnippet ep.content terms 600)
                    (acc.length + 1)]).length : Int)
              then acc ++ [SearchResult.mk ep.guest (extractSnippet ep.content terms 600)
                (acc.length + 1)]
              else fallbackRun terms limit rest' (ep.guest :: seen)
                (acc ++ [SearchResult.mk ep.guest (extractSnippet ep.content terms 600)
                  (acc.length + 1)])) = out := hrun
        have hgnot : ep.guest ∉ seen := fun hmem => hcont (List.elem_iff.mpr hmem)
        have hinvp := hinv.push hgnot (hrest ep (List.mem_cons_self _ _)) rfl
        split at hrun'
        · rename_i hle
          subst hrun'
          refine ⟨hinvp.nodup, hinvp.ranks, List.prefix_append _ _, hinvp.prov,
            fun hlt => ?_, fun hlt => ?_⟩
          · simp only [List.length_append, List.length_singleton] at hle ⊢
            omega
          · exfalso
            simp only [List.length_append, List.length_singleton] at hle hlt
            omega
        · rename_i hgt
          have hlt' : ((acc ++
              [SearchResult.mk ep.guest (extractSnippet ep.content terms 600)
                (acc.length + 1)]).length : Int) < limit := by
            simp only [List.length_append, List.length_singleton] at hgt ⊢
            omega
          have IH := ih (ep.guest :: seen) _ out hrun' hinvp
            (fun e he => hrest e (List.mem_cons_of_mem _ he))
          refine ⟨IH.1, IH.2.1, (List.prefix_append _ _).trans IH.2.2.1, IH.2.2.2.1,
            fun _ => IH.2.2.2.2.1 hlt', ?_⟩
          intro hlt e he hmatch'
          rcases List.mem_cons.mp he with rfl | he'
          · have hmem : e.guest ∈ (acc ++
                [SearchResult.mk e.guest (extractSnippet e.content terms 600)
                  (acc.length + 1)]).map (·.guest) := by
              rw [List.map_append]
              exact List.mem_append_right _ (by simp)
            exact (IH.2.2.1.map (·.guest)).subset hmem
          · exact IH.2.2.2.2.2 hlt e he' hmatch'
      · rename_i hmatch
        have IH := ih seen acc out hrun hinv
          (fun e he => hrest e (List.mem_cons_of_mem _ he))
        refine ⟨IH.1, IH.2.1, IH.2.2.1, IH.2.2.2.1, IH.2.2.2.2.1, ?_⟩
        intro hlt e he hmatch'
        rcases List.mem_cons.mp he with rfl | he'
        · exact absurd hmatch' hmatch
        · exact IH.2.2.2.2.2 hlt e he' hmatch'

/-- Unfolding equation for `searchTranscripts` on an initialized engine. -/
theorem searchTranscripts_eq (eps : List Episode) (f : Oracle) (q : Str) (limit : Int) :
    searchTranscripts ⟨some f, eps⟩ q limit =
      Except.ok
        (if ((runOuter eps (searchTerms q) limit (f q (limit * 2)) [] []).2.length : Int) <
            limit
          then fallbackRun (searchTerms q) limit eps
            (runOuter eps (searchTerms q) limit (f q (limit * 2)) [] []).1
            (runOuter eps (searchTerms q) limit (f q (limit * 2)) [] []).2
          else (runOuter eps (searchTerms q) limit (f q (limit * 2)) [] []).2) := rfl

/-! ### Claim C1 — the rank and uniqueness contract of `search` -/

/-- Claim C1: on every initialized engine, for every query and positive
limit, the search succeeds with at most `limit` results, pairwise-distinct
guest identities, and relevance values exactly `1..k` in return order —
whichever pass produced each result. -/
theorem search_rank_contract (eps : List Episode) (f : Oracle) (q : Str) (N : Int)
    (hN : 0 < N) :
    ∃ rs, searchTranscripts ⟨some f, eps⟩ q N = Except.ok rs ∧
      (rs.length : Int) ≤ N ∧ (rs.map (·.guest)).Nodup ∧
      rs.map (·.relevance) = List.range' 1 rs.length := by
  rcases hout : runOuter eps (searchTerms q) N (f q (N * 2)) [] [] with ⟨seen₀, acc₀⟩
  have houter := runOuter_spec eps (searchTerms q) N (f q (N * 2)) [] [] seen₀ acc₀ hout
    (Inv.init eps (searchTerms q))
  have hacc_le : (acc₀.length : Int) ≤ N := houter.2 (by simpa using hN)
  rw [searchTranscripts_eq, hout]
  by_cases hlt : (acc₀.length : Int) < N
  · rw [if_pos hlt]
    have fspec := fallbackRun_spec eps (searchTerms q) N eps seen₀ acc₀ _ rfl houter.1
      (fun e he => he)
    exact ⟨_, rfl, fspec.2.2.2.2.1 hlt, fspec.1, fspec.2.1⟩
  · rw [if_neg hlt]
    exact ⟨_, rfl, hacc_le, houter.1.nodup, houter.1.ranks⟩

/-- Witness for C1 on a concrete one-episode engine and limit 3. -/
theorem search_rank_contract_witness :
    ∃ rs, searchTranscripts ⟨some oracleG, [epAbcDef]⟩ (str "abc") 3 = Except.ok rs ∧
      (rs.length : Int) ≤ 3 ∧ (rs.map (·.guest)).Nodup ∧
      rs.map (·.relevance) = List.range' 1 rs.length :=
  search_rank_contract [epAbcDef] oracleG (str "abc") 3 (by decide)

/-! ### Claim C2 — the fallback recall guarantee -/

/-- Counterexample for C2 as stated: under the claim's "any literal
substring of the query" reading, `"abc"` is a length-3 lowered substring of
the query `"abcd"` and occurs in the only document's text, yet the search
(whose term list is the whole token `"abcd"`) returns no results at all,
with the limit of 10 far from reached. -/
theorem search_substring_recall_cex :
    searchTranscripts ⟨some oracleEmpty, [epAbc]⟩ (str "abcd") 10 = Except.ok [] ∧
    strIncludes (lowerStr (str "abcd")) (str "abc") = true ∧
    strIncludes (lowerStr epAbc.content) (str "abc") = true ∧
    (str "abc").length > 2 ∧ (([] : List SearchResult).length : Int) < 10 :=
  ⟨rfl, rfl, rfl, by decide, by decide⟩

/-- Claim C2 (amended): the recall guarantee holds for the filtered query
terms (whitespace tokens of the query, lower-cased, longer than 2): if such
a term occurs as a literal substring of a corpus document's lowered text and
the returned result list is not full (shorter than the limit, so no pass
truncated), then that document's identity appears among the results. -/
theorem search_term_recall (eps : List Episode) (f : Oracle) (q : Str) (limit : Int)
    (rs : List SearchResult) (ep : Episode) (term : Str)
    (hrun : searchTranscripts ⟨some f, eps⟩ q limit = Except.ok rs)
    (hlen : (rs.length : Int) < limit)
    (hep : ep ∈ eps) (hterm : term ∈ searchTerms q)
    (hsub : strIncludes (lowerStr ep.content) term = true) :
    ep.guest ∈ rs.map (·.guest) := by
  rcases hout : runOuter eps (searchTerms q) limit (f q (limit * 2)) [] [] with ⟨seen₀, acc₀⟩
  rw [searchTranscripts_eq, hout] at hrun
  simp only [Except.ok.injEq] at hrun
  have houter := runOuter_spec eps (searchTerms q) limit (f q (limit * 2)) [] [] seen₀ acc₀
    hout (Inv.init eps (searchTerms q))
  by_cases hlt : (acc₀.length : Int) < limit
  · rw [if_pos hlt] at hrun
    subst hrun
    have fspec := fallbackRun_spec eps (searchTerms q) limit eps seen₀ acc₀ _ rfl houter.1
      (fun e he => he)
    exact fspec.2.2.2.2.2 hlen ep hep (List.any_eq_true.mpr ⟨term, hterm, hsub⟩)
  · rw [if_neg hlt] at hrun
    subst hrun
    exact absurd hlen hlt

/-- Witness for C2 on a concrete engine where the fallback pass finds the
document. -/
theorem search_term_recall_witness :
    epAbcDef.guest ∈ ([⟨str "G", str "abc def", 1⟩] : List SearchResult).map (·.guest) :=
  search_term_recall [epAbcDef] oracleEmpty (str "abc") 10
    [⟨str "G", str "abc def", 1⟩] epAbcDef (str "abc") rfl (by decide) (by decide)
    (by decide) (by decide)

/-! ### Claim C4 — the term list and what the snippets use -/

/-- Counterexample for C4 as stated: the discarded short token `"xy"` occurs
at position 0 of the document's content, yet the returned snippet is the
no-match fallback `"..."` — snippet placement received only the filtered
term list `["pricing"]`.  Had the short tokens been used for snippet
placement, the snippet would have been `"xy"`, as the second conjunct
computes. -/
theorem short_tokens_snippet_cex :
    searchTranscripts ⟨some oracleG, [epXY]⟩ (str "pricing xy") 10 =
      Except.ok [⟨str "G", str "...", 1⟩] ∧
    extractSnippet (str "xy") [str "pricing", str "xy"] 600 = str "xy" ∧
    strIncludes (lowerStr (str "...")) (lowerStr (str "xy")) = false ∧
    idxOf? (lowerStr epXY.content) (str "xy") = some 0 :=
  ⟨rfl, rfl, rfl, rfl⟩

/-- Claim C4 (amended): the term list is the query split on whitespace,
lower-cased, with tokens of length ≤ 2 discarded (`searchTerms`); the
discarded short tokens are not used anywhere — in particular every returned
result's snippet is `extractSnippet` of its episode's content with exactly
that filtered term list (while the index search step receives the raw query
string, not the term list). -/
theorem snippet_uses_filtered_terms (st : EngineState) (q : Str) (limit : Int)
    (rs : List SearchResult) (r : SearchResult)
    (hrun : searchTranscripts st q limit = Except.ok rs) (hr : r ∈ rs) :
    ∃ e ∈ st.episodes, r.guest = e.guest ∧
      r.snippet = extractSnippet e.content (searchTerms q) 600 := by
  rcases st with ⟨idx, eps⟩
  cases idx with
  | none => exact absurd hrun (by simp [searchTranscripts])
  | some f =>
    rcases hout : runOuter eps (searchTerms q) limit (f q (limit * 2)) [] []
      with ⟨seen₀, acc₀⟩
    rw [searchTranscripts_eq, hout] at hrun
    simp only [Except.ok.injEq] at hrun
    have houter := runOuter_spec eps (searchTerms q) limit (f q (limit * 2)) [] [] seen₀
      acc₀ hout (Inv.init eps (searchTerms q))
    by_cases hlt : (acc₀.length : Int) < limit
    · rw [if_pos hlt] at hrun
      subst hrun
      have fspec := fallbackRun_spec eps (searchTerms q) limit eps seen₀ acc₀ _ rfl
        houter.1 (fun e he => he)
      exact fspec.2.2.2.1 r hr
    · rw [if_neg hlt] at hrun
      subst hrun
      exact houter.1.prov r hr

/-- Witness for C4 at the concrete engine of the counterexample. -/
theorem snippet_uses_filtered_terms_witness :
    ∃ e ∈ (⟨some oracleG, [epXY]⟩ : EngineState).episodes,
      (⟨str "G", str "...", 1⟩ : SearchResult).guest = e.guest ∧
      (⟨str "G", str "...", 1⟩ : SearchResult).snippet =
        extractSnippet e.content (searchTerms (str "pricing xy")) 600 :=
  snippet_uses_filtered_terms ⟨some oracleG, [epXY]⟩ (str "pricing xy") 10
    [⟨str "G", str "...", 1⟩] ⟨str "G", str "...", 1⟩ rfl (by decide)

/-! ### Claim C7 — snippet containment -/

theorem prefix_drop_window (l t : Str) (p start stop : Nat)
    (hocc : t <+: l.drop p) (hstart : start ≤ p) (hstop : p + t.length ≤ stop) :
    t <+: ((l.drop start).take (stop - start)).drop (p - start) := by
  rw [List.drop_take, List.drop_drop]
  have h1 : start + (p - start) = p := by omega
  have h2 : stop - start - (p - start) = stop - p := by omega
  rw [h1, h2]
  exact prefix_take_of_le hocc (by omega)

theorem snippet_trim_keeps_term (s term : Str) (hT : term ≠ [])
    (hws : ∀ c ∈ term, wsCode c = false)
    (h : lowerStr term <:+: lowerStr s) :
    strIncludes (lowerStr (trimStr s)) (lowerStr term) = true := by
  rw [lowerStr_trimStr]
  refine strIncludes_iff.mpr (infix_trimStr ?_ ?_ h)
  · intro hc
    exact hT (by simpa [lowerStr, List.map_eq_nil_iff] using hc)
  · intro c hc
    rcases List.mem_map.mp hc with ⟨c₀, h₀, rfl⟩
    rw [wsCode_lowerCode]
    exact hws c₀ h₀

/-- Counterexample for C7 as stated: with a target length smaller than the
term, the window centred on the match cuts the term off: the only term
occurs at position 0, yet the returned snippet `"ab..."` does not contain it
— and this is not the no-match fallback case. -/
theorem extractSnippet_truncates_term_cex :
    extractSnippet (str "abcdefghij") [str "abcdefghij"] 4 = str "ab..." ∧
    idxOf? (lowerStr (str "abcdefghij")) (lowerStr (str "abcdefghij")) = some 0 ∧
    strIncludes (lowerStr (str "ab...")) (lowerStr (str "abcdefghij")) = false :=
  ⟨rfl, rfl, rfl⟩

/-- Claim C7 (amended): if the earliest occurrence over all terms is an
occurrence of `term` at offset `p`, `term` is no longer than half the
target length, half the target length is at least 100 (so the
newline-snapping step, which discards fewer than 100 leading characters,
cannot reach the match), and `term` contains no whitespace (so the final
trim cannot erode its occurrence), then the returned snippet contains
`term` case-insensitively. -/
theorem extractSnippet_contains_term (content : Str) (terms : List Str) (term : Str)
    (targetLength : Nat) (p : Nat)
    (hmem : term ∈ terms)
    (hidx : idxOf? (lowerStr content) (lowerStr term) = some p)
    (hbest : bestPos (lowerStr content) terms = some p)
    (hlen : term.length ≤ targetLength / 2)
    (hhalf : 100 ≤ targetLength / 2)
    (hws : ∀ c ∈ term, wsCode c = false) :
    strIncludes (lowerStr (extractSnippet content terms targetLength)) (lowerStr term) =
      true := by
  by_cases hT : term = []
  · subst hT
    show strIncludes _ [] = true
    exact strIncludes_nil _
  simp only [extractSnippet, hbest]
  set half := targetLength / 2 with hhalf_def
  set n := content.length with hn_def
  set start := p - half with hstart_def
  set stop := n ⊓ (p + half) with hstop_def
  set S0 := List.take (stop - start) (List.drop start content) with hS0_def
  have hocc : lowerStr term <+: (lowerStr content).drop p := idxOf?_some _ _ _ hidx
  have hltlen : (lowerStr term).length = term.length := length_lowerStr term
  have hplen : p + term.length ≤ n := by
    have h1 := hocc.length_le
    rw [List.length_drop, hltlen] at h1
    have h2 : (lowerStr content).length = n := length_lowerStr content
    rw [h2] at h1
    rcases le_or_lt p n with h | h
    · omega
    · exfalso
      have : term.length = 0 := by omega
      exact hT (List.length_eq_zero.mp this)
  have hstart_le : start ≤ p := by omega
  have hstop_ge : p + term.length ≤ stop := by
    rw [hstop_def]
    exact le_min hplen (by omega)
  have hwin : lowerStr term <+:
      (((lowerStr content).drop start).take (stop - start)).drop (p - start) :=
    prefix_drop_window _ _ p start stop hocc hstart_le (by rw [hltlen]; exact hstop_ge)
  have hmapS0 : lowerStr S0 = ((lowerStr content).drop start).take (stop - start) := by
    rw [hS0_def]
    simp [lowerStr]
  have hS0occ : lowerStr term <+: (lowerStr S0).drop (p - start) := by
    rw [hmapS0]; exact hwin
  have hS0inf : lowerStr term <:+: lowerStr S0 := infix_of_prefix_drop hS0occ
  have happl : ∀ a b : Str, lowerStr term <:+: lowerStr a →
      lowerStr term <:+: lowerStr (a ++ b) := by
    intro a b h
    unfold lowerStr at h ⊢
    rw [List.map_append]
    exact h.trans (List.prefix_append _ _).isInfix
  have happr : ∀ a b : Str, lowerStr term <:+: lowerStr b →
      lowerStr term <:+: lowerStr (a ++ b) := by
    intro a b h
    unfold lowerStr at h ⊢
    rw [List.map_append]
    exact h.trans (List.suffix_append _ _).isInfix
  have hB : ∀ np : Nat, np < 100 → 0 < start →
      lowerStr term <:+: lowerStr (S0.drop (np + 1)) := by
    intro np hnp h0
    have hph : p - start = half := by omega
    have hdd : (lowerStr (S0.drop (np + 1))).drop (half - (np + 1)) =
        (lowerStr S0).drop half := by
      unfold lowerStr
      rw [List.map_drop, List.drop_drop]
      congr 1
      omega
    refine infix_of_prefix_drop (p := half - (np + 1)) ?_
    rw [hdd, ← hph]
    exact hS0occ
  split
  · -- stop < n : a trailing ellipsis is appended
    split
    · -- 0 < start : ellipsis prefix and newline snap
      rename_i h0
      split
      · -- idxOf? found a newline
        rename_i np heq
        split
        · rename_i hnp
          exact snippet_trim_keeps_term _ _ hT hws (happl _ _ (happr _ _ (hB np hnp h0)))
        · exact snippet_trim_keeps_term _ _ hT hws (happl _ _ (happr _ _ hS0inf))
      · exact snippet_trim_keeps_term _ _ hT hws (happl _ _ (happr _ _ hS0inf))
    · exact snippet_trim_keeps_term _ _ hT hws (happl _ _ hS0inf)
  · split
    · rename_i h0
      split
      · rename_i np heq
        split
        · rename_i hnp
          exact snippet_trim_keeps_term _ _ hT hws (happr _ _ (hB np hnp h0))
        · exact snippet_trim_keeps_term _ _ hT hws (happr _ _ hS0inf)
      · exact snippet_trim_keeps_term _ _ hT hws (happr _ _ hS0inf)
    · exact snippet_trim_keeps_term _ _ hT hws hS0inf

/-- Witness for C7 at a concrete text and term. -/
theorem extractSnippet_contains_term_witness :
    strIncludes (lowerStr (extractSnippet (str "abc def") [str "abc"] 600))
      (lowerStr (str "abc")) = true :=
  extractSnippet_contains_term (str "abc def") [str "abc"] (str "abc") 600 0
    (by decide) rfl rfl (by decide) (by decide) (by decide)

end LennySearch
